import Mathlib

/-
Verification of the workflow engine of the agentic-coder-sync-tool
repository: a shallow embedding in Lean 4 of the data model and of the
operations in src/utils/workflow_manager.py and src/web/server.py,
together with theorems settling the specification claims.

Conventions of the embedding:
- Python dicts become association lists (List (String × _)); assignment
  overwrites the binding in place, as in Python, and appends new keys at
  the end, preserving Python dict insertion order.
- Python Optional values become Option; truthiness of an optional string
  (None and the empty string are falsy) is the function truthyOptStr.
- Mutation of shared state becomes explicit state passing; calls to
  datetime.now() become explicit String parameters.
- File persistence (the _save_workflow calls) only mirrors the in-memory
  workflow to disk and never changes the in-memory object, so it has no
  counterpart here.
-/

/-- A Python-like scalar value, used for condition values and run contexts. -/
inductive PyVal where
  | vStr (s : String)
  | vInt (n : Int)
  | vBool (b : Bool)
  | vNone
deriving DecidableEq

/-- A branch condition as stored in WorkflowStep.conditions: a Python dict
with optional op, field and value entries; an absent key is none. -/
structure Condition where
  op : Option String := none
  field : Option String := none
  value : Option PyVal := none
deriving DecidableEq

/-- WorkflowStep from workflow_manager.py: a single node of a workflow graph. -/
structure WorkflowStep where
  id : String
  agent_name : String
  action : String
  description : String
  inputs : List (String × String) := []
  outputs : List String := []
  next_steps : List String := []
  conditions : List (String × Condition) := []
  on_error : Option String := none
  position_x : Int := 0
  position_y : Int := 0
  node_type : String := "agent"
  parameters : List (String × String) := []
deriving DecidableEq

/-- Workflow from workflow_manager.py: a complete workflow definition. -/
structure Workflow where
  id : String
  name : String
  description : String
  trigger : String
  trigger_pattern : Option String := none
  steps : List WorkflowStep := []
  entry_point : Option String := none
  metadata : List (String × String) := []
  created_at : String := ""
  updated_at : String := ""
deriving DecidableEq

/-- Python truthiness of an optional string: None and the empty string are falsy. -/
def truthyOptStr : Option String → Bool
  | none => false
  | some s => !(s == "")

/-- Python bool() of a value looked up from a context dict (None when absent). -/
def pyTruthyVal : Option PyVal → Bool
  | none => false
  | some (.vStr s) => !(s == "")
  | some (.vInt n) => !(n == 0)
  | some (.vBool b) => b
  | some .vNone => false

/-- Python str() of a value looked up from a context dict (None when absent). -/
def pyStr : Option PyVal → String
  | none => "None"
  | some (.vStr s) => s
  | some (.vInt n) => toString n
  | some (.vBool b) => if b then "True" else "False"
  | some .vNone => "None"

/-- Python substring test sub in hay, on character lists. -/
def listContainsSub (sub : List Char) (hay : List Char) : Bool :=
  match hay with
  | [] => sub.isEmpty
  | _ :: rest => sub.isPrefixOf hay || listContainsSub sub rest

/-- context.get(k): first binding of k in the association list, None if absent. -/
def ctxGet (context : List (String × PyVal)) (k : String) : Option PyVal :=
  (context.find? (fun p => p.1 == k)).map Prod.snd

/-- Python dict assignment d[k] = v on an association list: overwrite the
binding in place when the key exists, append it at the end otherwise. -/
def dictInsert (m : List (String × String)) (k v : String) : List (String × String) :=
  if m.any (fun p => p.1 == k) then
    m.map (fun p => if p.1 == k then (k, v) else p)
  else m ++ [(k, v)]

/-- WorkflowManager._evaluate_condition: evaluate a condition dict against a
context dict.  An unrecognized operator falls through to True (fail-open). -/
def evaluate_condition (condition : Condition) (context : List (String × PyVal)) : Bool :=
  let op := condition.op.getD ("eq")
  let fld := condition.field.getD ("")
  let value := condition.value
  let actual := ctxGet context fld
  if op == "eq" then actual == value
  else if op == "ne" then !(actual == value)
  else if op == "contains" then
    -- value in str(actual) if actual else False; a non-string value would
    -- raise TypeError in Python and is modeled as false here
    if pyTruthyVal actual then
      match value with
      | some (.vStr v) => listContainsSub v.toList (pyStr actual).toList
      | _ => false
    else false
  else if op == "exists" then context.any (fun p => p.1 == fld)
  else if op == "true" then pyTruthyVal actual
  else if op == "false" then !(pyTruthyVal actual)
  else true

/-- C8: for every condition whose op value is present but is none of eq, ne,
contains, exists, true, false, and for every context, condition evaluation
returns true (fail-open) rather than raising or returning false. -/
theorem wf_C8 (c : Condition) (ctx : List (String × PyVal)) (o : String)
    (hop : c.op = some o)
    (h : o ∉ (["eq", "ne", "contains", "exists", "true", "false"] : List String)) :
    evaluate_condition c ctx = true := by
  obtain ⟨h1, h2, h3, h4, h5, h6⟩ :
      o ≠ "eq" ∧ o ≠ "ne" ∧ o ≠ "contains" ∧ o ≠ "exists" ∧ o ≠ "true" ∧ o ≠ "false" := by
    simpa [not_or] using h
  simp [evaluate_condition, hop, h1, h2, h3, h4, h5, h6]

/-- A concrete condition carrying an unrecognized operator. -/
def cUnknownOp : Condition := { op := some ("matches"), field := some ("x"), value := none }

/-- Witness for C8 at a concrete condition and context. -/
theorem wf_C8_witness :
    cUnknownOp.op = some ("matches") ∧ evaluate_condition cUnknownOp [] = true :=
  ⟨rfl, wf_C8 cUnknownOp [] ("matches") rfl (by decide)⟩

/-- The external-model keyword list of analyze_workflow_complexity. -/
def model_keywords : List String :=
  ["gemini", "gpt", "codex", "openai", "anthropic", "llama", "mistral"]

/-- Python str.lower(), modeled on the character list (String.toLower itself
is defined by well-founded recursion and does not reduce in the kernel). -/
def lowerChars (cs : List Char) : List Char :=
  cs.map Char.toLower

/-- model in (step.description or "").lower(): substring search in the
lowercased description. -/
def kwInDesc (kw desc : String) : Bool :=
  listContainsSub kw.toList (lowerChars desc.toList)

/-- The external_models accumulation loop of analyze_workflow_complexity:
steps outer, keywords inner, appending a keyword the first time it is seen. -/
def collectModels (steps : List WorkflowStep) : List String :=
  steps.foldl
    (fun acc s =>
      model_keywords.foldl
        (fun acc2 m =>
          if kwInDesc m s.description && !(acc2.contains m) then acc2 ++ [m] else acc2)
        acc)
    []

/-- The dict returned by analyze_workflow_complexity (the error branch for a
missing workflow id is handled by the store lookup and not part of this
per-workflow function). -/
structure ComplexityAnalysis where
  complexity_score : Nat
  recommended_export : String
  recommendation_reason : String
  reasons : List String
  has_parallelism : Bool
  has_external_models : Bool
  external_models : List String
  has_conditionals : Bool
  has_hitl : Bool
  has_loops : Bool
  step_count : Nat
deriving DecidableEq

/-- WorkflowManager.analyze_workflow_complexity, translated factor by factor. -/
def analyze_workflow_complexity (w : Workflow) : ComplexityAnalysis :=
  let step_count := w.steps.length
  let s1 : Nat := if step_count ≤ 3 then 10 else if step_count ≤ 6 then 30 else 50
  let stepReason : String :=
    if step_count ≤ 3 then "Simple workflow (" ++ toString step_count ++ " steps)"
    else if step_count ≤ 6 then "Moderate workflow (" ++ toString step_count ++ " steps)"
    else "Complex workflow (" ++ toString step_count ++ " steps)"
  let has_parallel := w.steps.any (fun s => s.node_type == "parallel")
  let has_join := w.steps.any (fun s => s.node_type == "join")
  let has_parallelism := has_parallel || has_join
  let external_models := collectModels w.steps
  let has_external_models : Bool := decide (0 < external_models.length)
  let has_conditionals := w.steps.any (fun s => s.node_type == "conditional")
  let has_hitl := w.steps.any (fun s => s.node_type == "hitl")
  let has_loops := w.steps.any (fun s => s.node_type == "loop_start" || s.node_type == "loop_end")
  let score : Nat := s1 + (if has_parallelism then 20 else 0)
    + (if has_external_models then 15 else 0)
    + (if has_conditionals then 10 else 0) + (if has_hitl then 10 else 0)
    + (if has_loops then 10 else 0) + (if w.trigger == "pattern" then 5 else 0)
  let reasons : List String := [stepReason]
    ++ (if has_parallelism then ["Contains parallel execution branches"] else [])
    ++ (if has_external_models then
          ["References external models: " ++ String.intercalate ", " external_models]
        else [])
    ++ (if has_conditionals then ["Contains conditional branching"] else [])
    ++ (if has_hitl then ["Requires human approval steps"] else [])
    ++ (if has_loops then ["Contains iterative loops"] else [])
    ++ (if w.trigger == "pattern" then ["Pattern-triggered (contextual activation)"]
        else if w.trigger == "command" then ["Command-triggered (direct invocation)"] else [])
  let recommended : String :=
    if decide (50 ≤ score) || has_parallelism || has_external_models then "skill"
    else if decide (step_count ≤ 4) && !has_parallelism then "command" else "both"
  let recommendation_reason : String :=
    if decide (50 ≤ score) || has_parallelism || has_external_models then
      "Complex orchestration benefits from skill flexibility"
    else if decide (step_count ≤ 4) && !has_parallelism then
      "Simple workflow suits direct command invocation"
    else "Moderate complexity - export both for flexibility"
  { complexity_score := min score 100,
    recommended_export := recommended,
    recommendation_reason := recommendation_reason,
    reasons := reasons,
    has_parallelism := has_parallelism,
    has_external_models := has_external_models,
    external_models := external_models,
    has_conditionals := has_conditionals,
    has_hitl := has_hitl,
    has_loops := has_loops,
    step_count := step_count }

/-- Modelled from the spec wording of the scoring table in section 4.4,
for the refinement comparison of claim C1. -/
def specScore (w : Workflow) : Nat :=
  (if w.steps.length ≤ 3 then 10 else if w.steps.length ≤ 6 then 30 else 50)
  + (if w.steps.any (fun s => s.node_type == "parallel" || s.node_type == "join") then 20 else 0)
  + (if w.steps.any (fun s => model_keywords.any (fun m => kwInDesc m s.description)) then 15 else 0)
  + (if w.steps.any (fun s => s.node_type == "conditional") then 10 else 0)
  + (if w.steps.any (fun s => s.node_type == "hitl") then 10 else 0)
  + (if w.steps.any (fun s => s.node_type == "loop_start" || s.node_type == "loop_end") then 10 else 0)
  + (if w.trigger == "pattern" then 5 else 0)

/-- Modelled from the spec wording: any parallel or join node present. -/
def specHasParallelism (w : Workflow) : Bool :=
  w.steps.any (fun s => s.node_type == "parallel" || s.node_type == "join")

/-- Modelled from the spec wording: any step description contains a known
external-model keyword. -/
def specHasExternalModels (w : Workflow) : Bool :=
  w.steps.any (fun s => model_keywords.any (fun m => kwInDesc m s.description))

/-- Modelled from the spec wording of the recommendation table in section 4.4. -/
def specRecommend (w : Workflow) : String :=
  if decide (50 ≤ min (specScore w) 100) || specHasParallelism w || specHasExternalModels w then
    "skill"
  else if decide (w.steps.length ≤ 4) && !specHasParallelism w then "command"
  else "both"

theorem bool_of_iff {a b : Bool} (h : a = true ↔ b = true) : a = b := by
  cases a <;> cases b <;> simp_all

theorem any_or_any {α : Type} (l : List α) (p q : α → Bool) :
    (l.any p || l.any q) = l.any (fun a => p a || q a) := by
  induction l with
  | nil => rfl
  | cons a t ih =>
    simp only [List.any_cons, ← ih]
    cases p a <;> cases q a <;> simp

theorem mem_collect_inner (s : WorkflowStep) (kws : List String) (acc : List String) (m : String) :
    (m ∈ kws.foldl
        (fun acc2 k =>
          if kwInDesc k s.description && !(acc2.contains k) then acc2 ++ [k] else acc2)
        acc)
      ↔ m ∈ acc ∨ (m ∈ kws ∧ kwInDesc m s.description = true) := by
  induction kws generalizing acc with
  | nil => simp
  | cons k ks ih =>
    simp only [List.foldl_cons, ih, List.mem_cons]
    by_cases hc : (kwInDesc k s.description && !(acc.contains k)) = true
    · obtain ⟨hkd, hkc⟩ := Bool.and_eq_true_iff.mp hc
      rw [if_pos hc]
      simp only [List.mem_append, List.mem_singleton]
      constructor
      · rintro ((hm | rfl) | ⟨hks, hkw⟩)
        · exact Or.inl hm
        · exact Or.inr ⟨Or.inl rfl, hkd⟩
        · exact Or.inr ⟨Or.inr hks, hkw⟩
      · rintro (hm | ⟨(rfl | hks), hkw⟩)
        · exact Or.inl (Or.inl hm)
        · exact Or.inl (Or.inr rfl)
        · exact Or.inr ⟨hks, hkw⟩
    · rw [if_neg hc]
      have hcase : kwInDesc k s.description = false ∨ k ∈ acc := by
        cases hkd : kwInDesc k s.description with
        | false => exact Or.inl rfl
        | true =>
          cases hac : acc.contains k with
          | false => exact absurd (by rw [hkd, hac]; rfl) hc
          | true => exact Or.inr (by simpa using hac)
      constructor
      · rintro (hm | ⟨hks, hkw⟩)
        · exact Or.inl hm
        · exact Or.inr ⟨Or.inr hks, hkw⟩
      · rintro (hm | ⟨(rfl | hks), hkw⟩)
        · exact Or.inl hm
        · rcases hcase with hkd | hin
          · rw [hkw] at hkd; cases hkd
          · exact Or.inl hin
        · exact Or.inr ⟨hks, hkw⟩

theorem mem_collect_aux (steps : List WorkflowStep) (acc : List String) (m : String) :
    (m ∈ steps.foldl
        (fun a s =>
          model_keywords.foldl
            (fun acc2 k =>
              if kwInDesc k s.description && !(acc2.contains k) then acc2 ++ [k] else acc2)
            a)
        acc)
      ↔ m ∈ acc ∨ ∃ s, s ∈ steps ∧ m ∈ model_keywords ∧ kwInDesc m s.description = true := by
  induction steps generalizing acc with
  | nil => simp
  | cons s t ih =>
    simp only [List.foldl_cons, ih, mem_collect_inner, List.mem_cons]
    constructor
    · rintro ((hm | ⟨hmk, hkw⟩) | ⟨s2, hs2, hmk, hkw⟩)
      · exact Or.inl hm
      · exact Or.inr ⟨s, Or.inl rfl, hmk, hkw⟩
      · exact Or.inr ⟨s2, Or.inr hs2, hmk, hkw⟩
    · rintro (hm | ⟨s2, (rfl | hs2), hmk, hkw⟩)
      · exact Or.inl (Or.inl hm)
      · exact Or.inl (Or.inr ⟨hmk, hkw⟩)
      · exact Or.inr ⟨s2, hs2, hmk, hkw⟩

theorem collect_pos_iff (steps : List WorkflowStep) :
    0 < (collectModels steps).length
      ↔ ∃ s, s ∈ steps ∧ ∃ m, m ∈ model_keywords ∧ kwInDesc m s.description = true := by
  rw [List.length_pos_iff_exists_mem]
  unfold collectModels
  constructor
  · rintro ⟨m, hm⟩
    rw [mem_collect_aux] at hm
    rcases hm with h | ⟨s, hs, hmk, hkw⟩
    · cases h
    · exact ⟨s, hs, m, hmk, hkw⟩
  · rintro ⟨s, hs, m, hmk, hkw⟩
    exact ⟨m, (mem_collect_aux _ _ _).mpr (Or.inr ⟨s, hs, hmk, hkw⟩)⟩

theorem hasExternal_eq (w : Workflow) :
    (decide (0 < (collectModels w.steps).length)) = specHasExternalModels w := by
  apply bool_of_iff
  simp only [decide_eq_true_iff, specHasExternalModels, List.any_eq_true]
  rw [collect_pos_iff]

theorem analyze_score_eq (w : Workflow) :
    (analyze_workflow_complexity w).complexity_score = min (specScore w) 100 := by
  have hp := any_or_any w.steps (fun s => s.node_type == "parallel")
    (fun s => s.node_type == "join")
  have he := hasExternal_eq w
  simp only [specHasExternalModels] at he
  simp only [analyze_workflow_complexity, specScore, hp, he]

theorem analyze_rec_eq (w : Workflow) :
    (analyze_workflow_complexity w).recommended_export = specRecommend w := by
  have hp := any_or_any w.steps (fun s => s.node_type == "parallel")
    (fun s => s.node_type == "join")
  have he := hasExternal_eq w
  simp only [specHasExternalModels] at he
  have hmin : ∀ a : Nat, (decide (50 ≤ min a 100)) = decide (50 ≤ a) := by
    intro a
    apply bool_of_iff
    simp only [decide_eq_true_iff]
    omega
  simp only [analyze_workflow_complexity, specRecommend, specScore, specHasParallelism,
    specHasExternalModels, hp, he, hmin]

/-- A plain two-step command-triggered workflow with no structural nodes and
no external-model keywords in its descriptions. -/
def exTwoStep : Workflow :=
  { id := "two-step", name := "Two Step", description := "plain pipeline",
    trigger := "command", trigger_pattern := some ("/two"),
    steps :=
      [{ id := "a", agent_name := "agent-one", action := "execute",
         description := "first step", next_steps := ["b"] },
       { id := "b", agent_name := "agent-two", action := "execute",
         description := "second step" }],
    entry_point := some ("a") }

/-- C1: for every workflow, analyze_workflow_complexity returns the additive
score table of the spec capped at 100 and the recommendation table of the
spec; a plain 2-step command-triggered workflow scores exactly 10 and
recommends command; every 7-step workflow with a parallel node scores at
least 70 and recommends skill. -/
theorem wf_C1 :
    (∀ w : Workflow,
      (analyze_workflow_complexity w).complexity_score = min (specScore w) 100) ∧
    (∀ w : Workflow,
      (analyze_workflow_complexity w).recommended_export = specRecommend w) ∧
    ((analyze_workflow_complexity exTwoStep).complexity_score = 10 ∧
      (analyze_workflow_complexity exTwoStep).recommended_export = "command") ∧
    (∀ w : Workflow, w.steps.length = 7 →
      (∃ s, s ∈ w.steps ∧ s.node_type = "parallel") →
      70 ≤ (analyze_workflow_complexity w).complexity_score ∧
        (analyze_workflow_complexity w).recommended_export = "skill") := by
  refine ⟨analyze_score_eq, analyze_rec_eq, ⟨by decide, by decide⟩, ?_⟩
  rintro w h7 ⟨s, hs, hpar⟩
  have hparbool : specHasParallelism w = true := by
    refine List.any_eq_true.mpr ⟨s, hs, ?_⟩
    simp [hpar]
  constructor
  · rw [analyze_score_eq]
    have hscore : 70 ≤ specScore w := by
      have h1 : (if w.steps.length ≤ 3 then (10 : Nat)
          else if w.steps.length ≤ 6 then 30 else 50) = 50 := by
        rw [h7]
        norm_num
      have h2 : (if w.steps.any (fun s => s.node_type == "parallel" || s.node_type == "join")
          then (20 : Nat) else 0) = 20 := by
        have := hparbool
        simp only [specHasParallelism] at this
        rw [this]
        rfl
      unfold specScore
      rw [h1, h2]
      split_ifs <;> omega
    rw [Nat.le_min]
    exact ⟨hscore, by norm_num⟩
  · rw [analyze_rec_eq]
    simp [specRecommend, hparbool]

/-- A concrete 7-step workflow containing one parallel node. -/
def exSevenStep : Workflow :=
  { id := "seven", name := "Seven", description := "larger pipeline",
    trigger := "manual",
    steps :=
      [{ id := "s1", agent_name := "a1", action := "execute", description := "one" },
       { id := "s2", agent_name := "a2", action := "execute", description := "two" },
       { id := "s3", agent_name := "a3", action := "execute", description := "three" },
       { id := "s4", agent_name := "a4", action := "execute", description := "four",
         node_type := "parallel" },
       { id := "s5", agent_name := "a5", action := "execute", description := "five" },
       { id := "s6", agent_name := "a6", action := "execute", description := "six" },
       { id := "s7", agent_name := "a7", action := "execute", description := "seven" }],
    entry_point := some ("s1") }

/-- Witness for C1 at the concrete 7-step workflow with a parallel node. -/
theorem wf_C1_witness :
    70 ≤ (analyze_workflow_complexity exSevenStep).complexity_score ∧
      (analyze_workflow_complexity exSevenStep).recommended_export = "skill" :=
  wf_C1.2.2.2 exSevenStep (by decide) (by decide)

/-- Python str.strip() on a character list: drop whitespace at both ends. -/
def trimChars (cs : List Char) : List Char :=
  (((cs.dropWhile Char.isWhitespace).reverse).dropWhile Char.isWhitespace).reverse

/-- text.lower().strip() as performed by parse_verbal_command. -/
def normChars (text : String) : List Char :=
  trimChars (lowerChars text.toList)

/-- The regex constructs used by the verbal command patterns: a literal run,
one-or-more whitespace, zero-or-more whitespace, and a captured run of
non-whitespace characters. -/
inductive Pat where
  | lit (s : String)
  | ws1
  | ws0
  | cap
deriving DecidableEq

/-- Match a pattern at the start of the input, returning the captured group
on success.  Greedy maximal munch coincides with regex backtracking for the
pattern shapes used here, because a captured run of non-whitespace is always
followed by whitespace or the end of the pattern, and whitespace runs are
always followed by a literal or a capture. -/
def matchHere : List Pat → List Char → Option (Option String)
  | [], _ => some none
  | .lit s :: ps, cs =>
    if s.toList.isPrefixOf cs then matchHere ps (cs.drop s.toList.length) else none
  | .ws1 :: ps, cs =>
    match cs with
    | [] => none
    | c :: rest =>
      if c.isWhitespace then matchHere ps (rest.dropWhile Char.isWhitespace) else none
  | .ws0 :: ps, cs => matchHere ps (cs.dropWhile Char.isWhitespace)
  | .cap :: ps, cs =>
    let tok := cs.takeWhile (fun c => !c.isWhitespace)
    if tok.isEmpty then none
    else
      match matchHere ps (cs.drop tok.length) with
      | some _ => some (some (String.mk tok))
      | none => none

/-- re.search: try the pattern at every position, leftmost first. -/
def searchPat (ps : List Pat) : List Char → Option (Option String)
  | [] => matchHere ps []
  | c :: rest =>
    match matchHere ps (c :: rest) with
    | some r => some r
    | none => searchPat ps rest

/-- Search a disjunction of alternatives (used to flatten the one optional
group (?:last\s+)? into two capture-free alternatives). -/
def searchAlts (alts : List (List Pat)) (cs : List Char) : Option (Option String) :=
  alts.findSome? (fun p => searchPat p cs)

/-- WorkflowManager.HANDOFF_PATTERNS, in source order. -/
def HANDOFF_PATTERNS : List (List (List Pat) × String) :=
  [([[Pat.lit ("hand"), Pat.ws0, Pat.lit ("off"), Pat.ws1, Pat.lit ("to"), Pat.ws1, Pat.cap]],
    "handoff"),
   ([[Pat.lit ("switch"), Pat.ws1, Pat.lit ("to"), Pat.ws1, Pat.cap]], "switch"),
   ([[Pat.lit ("delegate"), Pat.ws1, Pat.lit ("to"), Pat.ws1, Pat.cap]], "delegate"),
   ([[Pat.lit ("use"), Pat.ws1, Pat.cap, Pat.ws1, Pat.lit ("agent")]], "use"),
   ([[Pat.lit ("let"), Pat.ws1, Pat.cap, Pat.ws1, Pat.lit ("handle")]], "delegate"),
   ([[Pat.lit ("pass"), Pat.ws1, Pat.lit ("to"), Pat.ws1, Pat.cap]], "handoff"),
   ([[Pat.lit ("transfer"), Pat.ws1, Pat.lit ("to"), Pat.ws1, Pat.cap]], "transfer"),
   ([[Pat.lit ("continue"), Pat.ws1, Pat.lit ("with"), Pat.ws1, Pat.cap]], "continue")]

/-- WorkflowManager.FLOW_PATTERNS, in source order; the retry pattern with
its optional group becomes two capture-free alternatives. -/
def FLOW_PATTERNS : List (List (List Pat) × String) :=
  [([[Pat.lit ("pause"), Pat.ws1, Pat.lit ("workflow")]], "pause"),
   ([[Pat.lit ("resume"), Pat.ws1, Pat.lit ("workflow")]], "resume"),
   ([[Pat.lit ("cancel"), Pat.ws1, Pat.lit ("workflow")]], "cancel"),
   ([[Pat.lit ("restart"), Pat.ws1, Pat.lit ("workflow")]], "restart"),
   ([[Pat.lit ("skip"), Pat.ws1, Pat.lit ("to"), Pat.ws1, Pat.cap]], "skip"),
   ([[Pat.lit ("go"), Pat.ws1, Pat.lit ("back"), Pat.ws1, Pat.lit ("to"), Pat.ws1, Pat.cap]],
    "goback"),
   ([[Pat.lit ("retry"), Pat.ws1, Pat.lit ("last"), Pat.ws1, Pat.lit ("step")],
     [Pat.lit ("retry"), Pat.ws1, Pat.lit ("step")]], "retry")]

/-- The structured intent returned by parse_verbal_command; ctype is the
dict key named type in the source. -/
structure VerbalCommand where
  ctype : String
  action : String
  target : Option String
  original : String
deriving DecidableEq

/-- First pattern of the list that matches, with its action tag and capture. -/
def firstMatch (pats : List (List (List Pat) × String)) (cs : List Char) :
    Option (String × Option String) :=
  pats.findSome? (fun pa => (searchAlts pa.1 cs).map (fun cap => (pa.2, cap)))

/-- WorkflowManager.parse_verbal_command: handoff patterns first, then flow
patterns, first match wins, no match yields none. -/
def parse_verbal_command (text : String) : Option VerbalCommand :=
  let t := normChars text
  match firstMatch HANDOFF_PATTERNS t with
  | some (act, cap) =>
    some { ctype := "handoff", action := act, target := cap, original := text }
  | none =>
    match firstMatch FLOW_PATTERNS t with
    | some (act, cap) =>
      some { ctype := "flow", action := act, target := cap, original := text }
    | none => none

theorem findSome?_cons_eq {α β : Type} (f : α → Option β) (a : α) (l : List α) :
    (a :: l).findSome? f = match f a with | some b => some b | none => l.findSome? f := rfl

theorem firstMatch_eq_none (pats : List (List (List Pat) × String)) (cs : List Char) :
    firstMatch pats cs = none ↔ ∀ pa ∈ pats, searchAlts pa.1 cs = none := by
  induction pats with
  | nil => simp [firstMatch]
  | cons pa rest ih =>
    unfold firstMatch at ih ⊢
    rw [findSome?_cons_eq]
    cases h : searchAlts pa.1 cs with
    | some r => simp [h]
    | none => simp [h, ih]

theorem firstMatch_first (pats pre post : List (List (List Pat) × String))
    (pa : List (List Pat) × String) (cs : List Char) (cap : Option String)
    (hsplit : pats = pre ++ pa :: post)
    (hpre : ∀ q ∈ pre, searchAlts q.1 cs = none)
    (hmatch : searchAlts pa.1 cs = some cap) :
    firstMatch pats cs = some (pa.2, cap) := by
  subst hsplit
  induction pre with
  | nil =>
    unfold firstMatch
    rw [List.nil_append, findSome?_cons_eq, hmatch]
    rfl
  | cons q rest ih =>
    have hq : searchAlts q.1 cs = none := hpre q (List.mem_cons_self q rest)
    have hrest : ∀ r ∈ rest, searchAlts r.1 cs = none :=
      fun r hr => hpre r (List.mem_cons_of_mem q hr)
    unfold firstMatch at ih ⊢
    rw [List.cons_append, findSome?_cons_eq, hq]
    exact ih hrest

/-- C6: parse_verbal_command tries the ordered handoff pattern list first and
then the ordered flow pattern list, case-insensitively by substring search;
the first matching pattern wins and its capture becomes the target; no match
yields none rather than an error.  Concretely, hand off to reviewer yields a
handoff intent with action handoff and target reviewer, pause workflow
yields a flow intent with action pause, and hello world yields none. -/
theorem wf_C6 :
    ((parse_verbal_command ("hand off to reviewer")) =
      some { ctype := "handoff", action := "handoff", target := some ("reviewer"),
             original := "hand off to reviewer" }) ∧
    ((parse_verbal_command ("pause workflow")) =
      some { ctype := "flow", action := "pause", target := none,
             original := "pause workflow" }) ∧
    (parse_verbal_command ("hello world") = none) ∧
    (∀ text : String,
      parse_verbal_command text = none ↔
        ∀ pa ∈ HANDOFF_PATTERNS ++ FLOW_PATTERNS, searchAlts pa.1 (normChars text) = none) ∧
    (∀ (text : String) (pre post : List (List (List Pat) × String))
        (pa : List (List Pat) × String) (cap : Option String),
      HANDOFF_PATTERNS = pre ++ pa :: post →
      (∀ q ∈ pre, searchAlts q.1 (normChars text) = none) →
      searchAlts pa.1 (normChars text) = some cap →
      parse_verbal_command text =
        some { ctype := "handoff", action := pa.2, target := cap, original := text }) ∧
    (∀ (text : String) (pre post : List (List (List Pat) × String))
        (pa : List (List Pat) × String) (cap : Option String),
      (∀ q ∈ HANDOFF_PATTERNS, searchAlts q.1 (normChars text) = none) →
      FLOW_PATTERNS = pre ++ pa :: post →
      (∀ q ∈ pre, searchAlts q.1 (normChars text) = none) →
      searchAlts pa.1 (normChars text) = some cap →
      parse_verbal_command text =
        some { ctype := "flow", action := pa.2, target := cap, original := text }) := by
  refine ⟨by decide, by decide, by decide, ?_, ?_, ?_⟩
  · intro text
    simp only [parse_verbal_command]
    cases hh : firstMatch HANDOFF_PATTERNS (normChars text) with
    | some r =>
      obtain ⟨act, cap⟩ := r
      simp only [hh]
      constructor
      · intro hfalse
        exact absurd hfalse (by simp)
      · intro hall
        have hnone : firstMatch HANDOFF_PATTERNS (normChars text) = none :=
          (firstMatch_eq_none _ _).mpr
            (fun pa hpa => hall pa (List.mem_append_left _ hpa))
        rw [hh] at hnone
        cases hnone
    | none =>
      cases hf : firstMatch FLOW_PATTERNS (normChars text) with
      | some r =>
        obtain ⟨act, cap⟩ := r
        simp only [hh, hf]
        constructor
        · intro hfalse
          exact absurd hfalse (by simp)
        · intro hall
          have hnone : firstMatch FLOW_PATTERNS (normChars text) = none :=
            (firstMatch_eq_none _ _).mpr
              (fun pa hpa => hall pa (List.mem_append_right _ hpa))
          rw [hf] at hnone
          cases hnone
      | none =>
        simp only [hh, hf]
        constructor
        · intro _ pa hpa
          rcases List.mem_append.mp hpa with h | h
          · exact (firstMatch_eq_none _ _).mp hh pa h
          · exact (firstMatch_eq_none _ _).mp hf pa h
        · intro _
          trivial
  · intro text pre post pa cap hsplit hpre hmatch
    simp only [parse_verbal_command]
    rw [firstMatch_first HANDOFF_PATTERNS pre post pa (normChars text) cap hsplit hpre hmatch]
  · intro text pre post pa cap hhand hsplit hpre hmatch
    simp only [parse_verbal_command]
    rw [(firstMatch_eq_none HANDOFF_PATTERNS (normChars text)).mpr hhand,
      firstMatch_first FLOW_PATTERNS pre post pa (normChars text) cap hsplit hpre hmatch]

/-- Witness for C6: the none characterization applied at a concrete input. -/
theorem wf_C6_witness : parse_verbal_command ("nothing matches in this text") = none :=
  (wf_C6.2.2.2.1 ("nothing matches in this text")).mpr (by decide)

/-- The steps_by_id dict of to_executable_prompt: a Python dict comprehension
keeps the last binding for a duplicated id, hence the lookup on the reversed
list. -/
def stepLookup (steps : List WorkflowStep) (sid : String) : Option WorkflowStep :=
  steps.reverse.find? (fun s => s.id == sid)

/-- Pop queue elements until one is still fresh (unvisited), returning it with
the remainder of the queue.  An id that is not fresh is dropped exactly as the
source drops a dequeued id that is already in its visited set. -/
def nextVisit (fresh : List String) : List String → Option (String × List String)
  | [] => none
  | sid :: rest => if sid ∈ fresh then some (sid, rest) else nextVisit fresh rest

/-- The breadth-first numbering loop of get_ordered_steps.  fresh is the
complement of the visited set of the source, restricted to the finite universe
of step ids; gas bounds the number of visits, and gas = fresh.length always
suffices because every visit removes one id from fresh (the gas = 0 case then
coincides with an empty fresh set, where nextVisit finds nothing). -/
def bfsVisit (steps : List WorkflowStep) :
    Nat → List String → List String → Nat → List (Nat × WorkflowStep)
  | 0, _, _, _ => []
  | gas + 1, fresh, queue, num =>
    match nextVisit fresh queue with
    | none => []
    | some (sid, rest) =>
      match stepLookup steps sid with
      | some s =>
        (num, s) :: bfsVisit steps gas (fresh.erase sid) (rest ++ s.next_steps) (num + 1)
      | none => bfsVisit steps gas (fresh.erase sid) rest num

/-- The universe of visitable ids: the workflow step ids, deduplicated. -/
def orderFresh (w : Workflow) : List String :=
  (w.steps.map (fun s => s.id)).dedup

/-- get_ordered_steps of to_executable_prompt: declaration-order enumeration
when the entry point is absent or falsy, breadth-first numbering from the
entry point otherwise. -/
def get_ordered_steps (w : Workflow) : List (Nat × WorkflowStep) :=
  match w.entry_point with
  | none => w.steps.enum.map (fun p => (p.1 + 1, p.2))
  | some e =>
    if e == "" then w.steps.enum.map (fun p => (p.1 + 1, p.2))
    else bfsVisit w.steps (orderFresh w).length (orderFresh w) [e] 1

/-- Reachability along next_steps edges from a root id, resolving each id
through stepLookup. -/
inductive ReachableFrom (steps : List WorkflowStep) (root : String) : String → Prop
  | refl : ReachableFrom steps root root
  | step {a b : String} {s : WorkflowStep} :
      ReachableFrom steps root a → stepLookup steps a = some s →
      b ∈ s.next_steps → ReachableFrom steps root b

/-- Reachability from some element of a queue, expanding only ids that are
still fresh. -/
inductive ReachVia (steps : List WorkflowStep) (fresh : List String) :
    List String → String → Prop
  | base {queue : List String} {i : String} : i ∈ queue → ReachVia steps fresh queue i
  | step {queue : List String} {a b : String} {s : WorkflowStep} :
      ReachVia steps fresh queue a → a ∈ fresh → stepLookup steps a = some s →
      b ∈ s.next_steps → ReachVia steps fresh queue b

theorem nv_none {fresh queue : List String} (h : nextVisit fresh queue = none) :
    ∀ x ∈ queue, x ∉ fresh := by
  induction queue with
  | nil => intro x hx; cases hx
  | cons q qs ih =>
    intro x hx
    by_cases hq : q ∈ fresh
    · simp [nextVisit, hq] at h
    · have h2 : nextVisit fresh qs = none := by simpa [nextVisit, hq] using h
      rcases List.mem_cons.mp hx with rfl | hx2
      · exact hq
      · exact ih h2 x hx2

theorem nv_mem {fresh queue : List String} {sid : String} {rest : List String}
    (h : nextVisit fresh queue = some (sid, rest)) :
    sid ∈ fresh ∧ sid ∈ queue ∧ ∀ x ∈ rest, x ∈ queue := by
  induction queue with
  | nil => simp [nextVisit] at h
  | cons q qs ih =>
    by_cases hq : q ∈ fresh
    · have hpair : q = sid ∧ qs = rest := by
        simpa [nextVisit, hq] using h
      obtain ⟨rfl, rfl⟩ := hpair
      exact ⟨hq, List.mem_cons_self _ _, fun x hx => List.mem_cons_of_mem _ hx⟩
    · have h2 : nextVisit fresh qs = some (sid, rest) := by
        simpa [nextVisit, hq] using h
      obtain ⟨h1, h2m, h3⟩ := ih h2
      exact ⟨h1, List.mem_cons_of_mem _ h2m, fun x hx => List.mem_cons_of_mem _ (h3 x hx)⟩

theorem reachVia_nil {steps : List WorkflowStep} {fresh : List String} {i : String}
    (h : ReachVia steps fresh [] i) : False := by
  induction h with
  | base hm => cases hm
  | step _ _ _ _ ih => exact ih

theorem reach_drop_head {steps : List WorkflowStep} {fresh : List String}
    {sid : String} {rest : List String} {i : String} (hs : sid ∉ fresh)
    (h : ReachVia steps fresh (sid :: rest) i) :
    i = sid ∨ ReachVia steps fresh rest i := by
  induction h with
  | base hm =>
    rcases List.mem_cons.mp hm with rfl | hm2
    · exact Or.inl rfl
    · exact Or.inr (ReachVia.base hm2)
  | step hra haf hla hb ih =>
    rcases ih with rfl | hr2
    · exact absurd haf hs
    · exact Or.inr (ReachVia.step hr2 haf hla hb)

theorem nv_reach {steps : List WorkflowStep} {fresh queue : List String}
    {sid : String} {rest : List String} {i : String}
    (h : nextVisit fresh queue = some (sid, rest)) (hi : i ∈ fresh)
    (hr : ReachVia steps fresh queue i) : ReachVia steps fresh (sid :: rest) i := by
  induction queue with
  | nil => simp [nextVisit] at h
  | cons q qs ih =>
    by_cases hq : q ∈ fresh
    · have hpair : q = sid ∧ qs = rest := by
        simpa [nextVisit, hq] using h
      obtain ⟨rfl, rfl⟩ := hpair
      exact hr
    · have h2 : nextVisit fresh qs = some (sid, rest) := by
        simpa [nextVisit, hq] using h
      rcases reach_drop_head hq hr with rfl | hr2
      · exact absurd hi hq
      · exact ih h2 hr2

theorem reach_none {steps : List WorkflowStep} {fresh queue : List String} {i : String}
    (hall : ∀ x ∈ queue, x ∉ fresh) (hi : i ∈ fresh)
    (hr : ReachVia steps fresh queue i) : False := by
  induction queue with
  | nil => exact reachVia_nil hr
  | cons q qs ih =>
    rcases reach_drop_head (hall q (List.mem_cons_self _ _)) hr with rfl | hr2
    · exact hall i (List.mem_cons_self _ _) hi
    · exact ih (fun x hx => hall x (List.mem_cons_of_mem _ hx)) hr2

theorem reach_visit_some {steps : List WorkflowStep} {fresh : List String}
    {sid : String} {rest : List String} {s : WorkflowStep} {i : String}
    (hs : stepLookup steps sid = some s)
    (h : ReachVia steps fresh (sid :: rest) i) :
    i = sid ∨ ReachVia steps (fresh.erase sid) (rest ++ s.next_steps) i := by
  induction h with
  | base hm =>
    rcases List.mem_cons.mp hm with rfl | hm2
    · exact Or.inl rfl
    · exact Or.inr (ReachVia.base (List.mem_append_left _ hm2))
  | step hra haf hla hb ih =>
    rename_i a b sa
    by_cases ha : a = sid
    · subst ha
      rw [hla] at hs
      cases hs
      exact Or.inr (ReachVia.base (List.mem_append_right _ hb))
    · rcases ih with rfl | hr2
      · exact absurd rfl ha
      · exact Or.inr (ReachVia.step hr2 ((List.mem_erase_of_ne ha).mpr haf) hla hb)

theorem reach_visit_none {steps : List WorkflowStep} {fresh : List String}
    {sid : String} {rest : List String} {i : String}
    (hs : stepLookup steps sid = none)
    (h : ReachVia steps fresh (sid :: rest) i) :
    i = sid ∨ ReachVia steps (fresh.erase sid) rest i := by
  induction h with
  | base hm =>
    rcases List.mem_cons.mp hm with rfl | hm2
    · exact Or.inl rfl
    · exact Or.inr (ReachVia.base hm2)
  | step hra haf hla hb ih =>
    rename_i a b sa
    by_cases ha : a = sid
    · subst ha
      rw [hla] at hs
      cases hs
    · rcases ih with rfl | hr2
      · exact absurd rfl ha
      · exact Or.inr (ReachVia.step hr2 ((List.mem_erase_of_ne ha).mpr haf) hla hb)

theorem lookup_id {steps : List WorkflowStep} {sid : String} {s : WorkflowStep}
    (h : stepLookup steps sid = some s) : s.id = sid ∧ s ∈ steps := by
  unfold stepLookup at h
  have h1 := List.find?_some h
  have h2 := List.mem_of_find?_eq_some h
  exact ⟨by simpa using h1, List.mem_reverse.mp h2⟩

theorem bfs_mem_fresh {steps : List WorkflowStep} :
    ∀ {gas : Nat} {fresh queue : List String} {num : Nat} {p : Nat × WorkflowStep},
      p ∈ bfsVisit steps gas fresh queue num →
      p.2.id ∈ fresh ∧ stepLookup steps p.2.id = some p.2 := by
  intro gas
  induction gas with
  | zero => intro fresh queue num p hp; cases hp
  | succ g ih =>
    intro fresh queue num p hp
    unfold bfsVisit at hp
    cases hnv : nextVisit fresh queue with
    | none => simp only [hnv] at hp; cases hp
    | some pr =>
      obtain ⟨sid, rest⟩ := pr
      simp only [hnv] at hp
      obtain ⟨hsf, _, _⟩ := nv_mem hnv
      cases hls : stepLookup steps sid with
      | some s =>
        simp only [hls] at hp
        rcases List.mem_cons.mp hp with rfl | hp2
        · obtain ⟨hid, _⟩ := lookup_id hls
          constructor
          · simpa [hid] using hsf
          · simpa [hid] using hls
        · obtain ⟨hf, hl⟩ := ih hp2
          exact ⟨List.mem_of_mem_erase hf, hl⟩
      | none =>
        simp only [hls] at hp
        obtain ⟨hf, hl⟩ := ih hp
        exact ⟨List.mem_of_mem_erase hf, hl⟩

theorem bfs_nodup {steps : List WorkflowStep} :
    ∀ {gas : Nat} {fresh queue : List String} {num : Nat}, fresh.Nodup →
      ((bfsVisit steps gas fresh queue num).map (fun p => p.2.id)).Nodup := by
  intro gas
  induction gas with
  | zero => intro fresh queue num _; simp [bfsVisit]
  | succ g ih =>
    intro fresh queue num hnd
    unfold bfsVisit
    cases hnv : nextVisit fresh queue with
    | none => simp [hnv]
    | some pr =>
      obtain ⟨sid, rest⟩ := pr
      obtain ⟨hsf, _, _⟩ := nv_mem hnv
      cases hls : stepLookup steps sid with
      | some s =>
        obtain ⟨hid, _⟩ := lookup_id hls
        simp only [hnv, hls, List.map_cons, List.nodup_cons]
        constructor
        · intro hmem
          rcases List.mem_map.mp hmem with ⟨p, hp, hpid⟩
          obtain ⟨hf, _⟩ := bfs_mem_fresh hp
          rw [hpid, hid] at hf
          exact (List.Nodup.mem_erase_iff hnd).mp hf |>.1 rfl
        · exact ih (hnd.erase sid)
      | none =>
        simp only [hnv, hls]
        exact ih (hnd.erase sid)

theorem bfs_fst {steps : List WorkflowStep} :
    ∀ {gas : Nat} {fresh queue : List String} {num : Nat},
      (bfsVisit steps gas fresh queue num).map Prod.fst =
        List.range' num (bfsVisit steps gas fresh queue num).length := by
  intro gas
  induction gas with
  | zero => intro fresh queue num; simp [bfsVisit]
  | succ g ih =>
    intro fresh queue num
    unfold bfsVisit
    cases hnv : nextVisit fresh queue with
    | none => simp [hnv]
    | some pr =>
      obtain ⟨sid, rest⟩ := pr
      cases hls : stepLookup steps sid with
      | some s =>
        simp only [hnv, hls, List.map_cons, List.length_cons, ih]
        rfl
      | none =>
        simp only [hnv, hls]
        exact ih

theorem bfs_sound {steps : List WorkflowStep} {root : String} :
    ∀ {gas : Nat} {fresh queue : List String} {num : Nat},
      (∀ x ∈ queue, ReachableFrom steps root x) →
      ∀ p ∈ bfsVisit steps gas fresh queue num,
        p.2 ∈ steps ∧ ReachableFrom steps root p.2.id := by
  intro gas
  induction gas with
  | zero => intro fresh queue num _ p hp; cases hp
  | succ g ih =>
    intro fresh queue num hq p hp
    unfold bfsVisit at hp
    cases hnv : nextVisit fresh queue with
    | none => simp only [hnv] at hp; cases hp
    | some pr =>
      obtain ⟨sid, rest⟩ := pr
      simp only [hnv] at hp
      obtain ⟨_, hsq, hrq⟩ := nv_mem hnv
      have hsr : ReachableFrom steps root sid := hq sid hsq
      cases hls : stepLookup steps sid with
      | some s =>
        simp only [hls] at hp
        obtain ⟨hid, hmem⟩ := lookup_id hls
        rcases List.mem_cons.mp hp with rfl | hp2
        · exact ⟨hmem, by simpa [hid] using hsr⟩
        · refine ih ?_ p hp2
          intro x hx
          rcases List.mem_append.mp hx with hx1 | hx2
          · exact hq x (hrq x hx1)
          · exact ReachableFrom.step hsr hls hx2
      | none =>
        simp only [hls] at hp
        exact ih (fun x hx => hq x (hrq x hx)) p hp

theorem bfs_complete {steps : List WorkflowStep} :
    ∀ {gas : Nat} {fresh queue : List String} {num : Nat},
      fresh.length ≤ gas →
      ∀ {i : String} {s : WorkflowStep}, i ∈ fresh → stepLookup steps i = some s →
        ReachVia steps fresh queue i →
        s ∈ (bfsVisit steps gas fresh queue num).map Prod.snd := by
  intro gas
  induction gas with
  | zero =>
    intro fresh queue num hgas i s hi _ _
    have hnil : fresh = [] := List.length_eq_zero.mp (Nat.le_zero.mp hgas)
    rw [hnil] at hi
    cases hi
  | succ g ih =>
    intro fresh queue num hgas i s hi hls hr
    unfold bfsVisit
    cases hnv : nextVisit fresh queue with
    | none => exact (reach_none (nv_none hnv) hi hr).elim
    | some pr =>
      obtain ⟨sid, rest⟩ := pr
      obtain ⟨hsf, _, _⟩ := nv_mem hnv
      have hr2 : ReachVia steps fresh (sid :: rest) i := nv_reach hnv hi hr
      have hlen : (fresh.erase sid).length ≤ g := by
        rw [List.length_erase_of_mem hsf]
        omega
      cases hls2 : stepLookup steps sid with
      | some s2 =>
        simp only [hnv, hls2, List.map_cons]
        by_cases hisid : i = sid
        · subst hisid
          rw [hls] at hls2
          cases hls2
          exact List.mem_cons_self _ _
        · rcases reach_visit_some hls2 hr2 with rfl | hr3
          · exact absurd rfl hisid
          · exact List.mem_cons_of_mem _
              (ih hlen ((List.mem_erase_of_ne hisid).mpr hi) hls hr3)
      | none =>
        simp only [hnv, hls2]
        by_cases hisid : i = sid
        · subst hisid
          rw [hls] at hls2
          cases hls2
        · rcases reach_visit_none hls2 hr2 with rfl | hr3
          · exact absurd rfl hisid
          · exact ih hlen ((List.mem_erase_of_ne hisid).mpr hi) hls hr3

theorem find?_id_self {l : List WorkflowStep} (hnd : (l.map (fun s => s.id)).Nodup)
    {s : WorkflowStep} (hs : s ∈ l) : l.find? (fun t => t.id == s.id) = some s := by
  induction l with
  | nil => cases hs
  | cons a t ih =>
    simp only [List.map_cons, List.nodup_cons] at hnd
    rcases List.mem_cons.mp hs with rfl | hs2
    · rw [List.find?_cons_of_pos _ (by simp)]
    · have hne : (a.id == s.id) = false := by
        apply beq_eq_false_iff_ne.mpr
        intro he
        apply hnd.1
        rw [he]
        exact List.mem_map_of_mem (fun s => s.id) hs2
      rw [List.find?_cons_of_neg _ (by simp [hne])]
      exact ih hnd.2 hs2

theorem lookup_self {steps : List WorkflowStep} (hnd : (steps.map (fun s => s.id)).Nodup)
    {s : WorkflowStep} (hs : s ∈ steps) : stepLookup steps s.id = some s := by
  unfold stepLookup
  apply find?_id_self
  · rw [List.map_reverse]
    exact List.nodup_reverse.mpr hnd
  · exact List.mem_reverse.mpr hs

theorem reachable_to_via {steps : List WorkflowStep} {fresh : List String} {root i : String}
    (hfresh : ∀ a sa, stepLookup steps a = some sa → a ∈ fresh)
    (h : ReachableFrom steps root i) : ReachVia steps fresh [root] i := by
  induction h with
  | refl => exact ReachVia.base (List.mem_singleton.mpr rfl)
  | step hra hla hb ih => exact ReachVia.step ih (hfresh _ _ hla) hla hb

/-- C4: on every workflow with a truthy entry point, including graphs whose
next_steps edges contain cycles, the breadth-first orderer is a total
function (termination), and no step id receives two order numbers. -/
theorem wf_C4 (w : Workflow) (e : String) (he : w.entry_point = some e) (hne : e ≠ "") :
    ((get_ordered_steps w).map (fun p => p.2.id)).Nodup := by
  unfold get_ordered_steps
  simp only [he, beq_eq_false_iff_ne.mpr hne, Bool.false_eq_true, if_false]
  exact bfs_nodup (List.nodup_dedup _)

/-- A concrete cyclic workflow: loop_start → body → loop_end → loop_start. -/
def exLoop : Workflow :=
  { id := "loop", name := "Loop", description := "cyclic",
    trigger := "manual",
    steps :=
      [{ id := "loop_start1", agent_name := "a", action := "execute",
         description := "start of loop", node_type := "loop_start",
         next_steps := ["body"] },
       { id := "body", agent_name := "b", action := "execute", description := "body",
         next_steps := ["loop_end1"] },
       { id := "loop_end1", agent_name := "c", action := "execute",
         description := "end of loop", node_type := "loop_end",
         next_steps := ["loop_start1"] }],
    entry_point := some ("loop_start1") }

/-- Witness for C4 on the concrete cyclic graph with a back-edge. -/
theorem wf_C4_witness :
    exLoop.entry_point = some ("loop_start1") ∧
      ((get_ordered_steps exLoop).map (fun p => p.2.id)).Nodup :=
  ⟨rfl, wf_C4 exLoop ("loop_start1") rfl (by decide)⟩

/-- Acyclicity of the next_steps graph, stated through a ranking function
that decreases along every edge. -/
def WorkflowAcyclic (w : Workflow) : Prop :=
  ∃ rank : String → Nat, ∀ s ∈ w.steps, ∀ b ∈ s.next_steps, rank b < rank s.id

/-- C5: on every workflow with a set (truthy) entry point, unique step ids
and an acyclic next_steps graph, the orderer numbers its output 1..N
contiguously, never numbers a step id twice, emits only steps reachable from
the entry point, and emits every step reachable from the entry point. -/
theorem wf_C5 (w : Workflow) (e : String) (he : w.entry_point = some e) (hne : e ≠ "")
    (hnd : (w.steps.map (fun s => s.id)).Nodup) (hacy : WorkflowAcyclic w) :
    ((get_ordered_steps w).map Prod.fst = List.range' 1 (get_ordered_steps w).length) ∧
    ((get_ordered_steps w).map (fun p => p.2.id)).Nodup ∧
    (∀ p ∈ get_ordered_steps w, p.2 ∈ w.steps ∧ ReachableFrom w.steps e p.2.id) ∧
    (∀ s ∈ w.steps, ReachableFrom w.steps e s.id →
      ∃ n, (n, s) ∈ get_ordered_steps w) := by
  have hrw : get_ordered_steps w =
      bfsVisit w.steps (orderFresh w).length (orderFresh w) [e] 1 := by
    unfold get_ordered_steps
    simp only [he, beq_eq_false_iff_ne.mpr hne, Bool.false_eq_true, if_false]
  refine ⟨?_, ?_, ?_, ?_⟩
  · rw [hrw]
    exact bfs_fst
  · rw [hrw]
    exact bfs_nodup (List.nodup_dedup _)
  · rw [hrw]
    intro p hp
    refine bfs_sound ?_ p hp
    intro x hx
    rcases List.mem_singleton.mp hx with rfl
    exact ReachableFrom.refl
  · rw [hrw]
    intro s hs hreach
    have hlook : stepLookup w.steps s.id = some s := lookup_self hnd hs
    have hif : s.id ∈ orderFresh w :=
      List.mem_dedup.mpr (List.mem_map_of_mem (fun s => s.id) hs)
    have hvia : ReachVia w.steps (orderFresh w) [e] s.id := by
      refine reachable_to_via ?_ hreach
      intro a sa hla
      obtain ⟨hid, hmem⟩ := lookup_id hla
      exact List.mem_dedup.mpr (hid ▸ List.mem_map_of_mem (fun s => s.id) hmem)
    have hmem : s ∈ (bfsVisit w.steps (orderFresh w).length (orderFresh w) [e] 1).map
        Prod.snd := bfs_complete (le_refl _) hif hlook hvia
    rcases List.mem_map.mp hmem with ⟨p, hp, hps⟩
    refine ⟨p.1, ?_⟩
    rw [← hps]
    exact hp

/-- A concrete acyclic two-step chain. -/
def exChain : Workflow :=
  { id := "chain", name := "Chain", description := "two linked steps",
    trigger := "manual",
    steps :=
      [{ id := "a", agent_name := "a1", action := "execute", description := "first",
         next_steps := ["b"] },
       { id := "b", agent_name := "b1", action := "execute", description := "second" }],
    entry_point := some ("a") }

/-- Witness for C5 on the concrete acyclic chain, discharging the entry,
nonempty, nodup and acyclicity hypotheses. -/
theorem wf_C5_witness :
    (get_ordered_steps exChain).map Prod.fst =
      List.range' 1 (get_ordered_steps exChain).length :=
  (wf_C5 exChain ("a") rfl (by decide) (by decide)
    ⟨fun i => if i = "a" then 1 else 0, by decide⟩).1

/-- Python equality current_step == edge_from where current_step is None or a
string: None never equals a string. -/
def optEqStr : Option String → String → Bool
  | none, _ => false
  | some s, t => s == t

/-- One edge of the visual format produced by to_visual_format. -/
structure VisualEdge where
  efrom : String
  eto : String
  condition : Option Condition := none
deriving DecidableEq

/-- The edges list of to_visual_format: for each step in declaration order,
one edge per next_steps entry, with the condition stored for that target. -/
def visualEdges (w : Workflow) : List VisualEdge :=
  w.steps.bind (fun s =>
    s.next_steps.map (fun n =>
      { efrom := s.id, eto := n,
        condition := (s.conditions.find? (fun p => p.1 == n)).map Prod.snd }))

/-- One entry of the process-wide _workflow_runs dict of server.py. -/
structure WorkflowRun where
  id : String
  workflow_id : String
  workflow_name : String
  status : String
  prompt : String
  current_step : Option String
  completed_steps : List String
  step_outputs : List (String × String)
  started_at : String
  finished_at : Option String
  error : Option String
deriving DecidableEq

/-- execute_workflow of server.py, given the resolved workflow: a fresh run
record with status running and current_step = entry_point. -/
def execute_workflow (w : Workflow) (run_id user_prompt now : String) : WorkflowRun :=
  { id := run_id, workflow_id := w.id, workflow_name := w.name, status := "running",
    prompt := user_prompt, current_step := w.entry_point, completed_steps := [],
    step_outputs := [], started_at := now, finished_at := none, error := none }

/-- advance_workflow_step of server.py: the store is passed as a lookup
function, the returned Bool is the success field of the JSON response. -/
def advance_workflow_step (lookup : String → Option Workflow) (run : WorkflowRun)
    (output : String) (next_step : Option String) (now : String) : Bool × WorkflowRun :=
  if run.status != "running" then (false, run)
  else
    match lookup run.workflow_id with
    | none => (false, { run with status := "error", error := some ("Workflow not found") })
    | some w =>
      let current := run.current_step
      let run1 :=
        if truthyOptStr current then
          { run with
              completed_steps := run.completed_steps ++ [current.getD ("")],
              step_outputs := dictInsert run.step_outputs (current.getD ("")) output }
        else run
      if truthyOptStr next_step then (true, { run1 with current_step := next_step })
      else
        let nexts := ((visualEdges w).filter (fun e2 => optEqStr current e2.efrom)).map
          (fun e2 => e2.eto)
        match nexts.head? with
        | some t => (true, { run1 with current_step := some t })
        | none =>
          (true,
            { run1 with
                current_step := none
                status := "completed"
                finished_at := some now })

/-- complete_workflow_run of server.py: force-sets the status (default
completed), stamps finished_at, and records a truthy error payload. -/
def complete_workflow_run (run : WorkflowRun) (status : Option String)
    (error : Option String) (now : String) : WorkflowRun :=
  let r1 := { run with status := status.getD ("completed"), finished_at := some now }
  if truthyOptStr error then { r1 with error := error } else r1

/-- C3 amended: advance never changes a run whose status is terminal
(completed, error or cancelled) — it fails and leaves every field unchanged;
complete_workflow_run, however, force-sets the status unconditionally, so a
terminal run can still be moved by complete (see the counterexample). -/
theorem wf_C3_amended (lookup : String → Option Workflow) (run : WorkflowRun)
    (output : String) (next_step : Option String) (now : String)
    (hterm : run.status = "completed" ∨ run.status = "error" ∨ run.status = "cancelled") :
    advance_workflow_step lookup run output next_step now = (false, run) := by
  have hne : (run.status != "running") = true := by
    rcases hterm with h | h | h <;> simp [h]
  unfold advance_workflow_step
  rw [if_pos hne]

/-- A concrete run already in the terminal cancelled state. -/
def runCancelled : WorkflowRun :=
  { id := "r1", workflow_id := "wf", workflow_name := "WF", status := "cancelled",
    prompt := "", current_step := none, completed_steps := [], step_outputs := [],
    started_at := "t0", finished_at := some ("t1"), error := none }

/-- Counterexample for C3 as stated: complete_workflow_run on a cancelled
(terminal) run force-sets its status to completed, so a public operation
does transition a run out of a terminal state. -/
theorem wf_C3_counterexample :
    runCancelled.status = "cancelled" ∧
      (complete_workflow_run runCancelled none none ("t2")).status = "completed" :=
  ⟨rfl, rfl⟩

/-- Witness for C3 at the concrete cancelled run. -/
theorem wf_C3_witness :
    advance_workflow_step (fun _ => none) runCancelled ("out") none ("t3") =
      (false, runCancelled) :=
  wf_C3_amended (fun _ => none) runCancelled ("out") none ("t3") (Or.inr (Or.inr rfl))

/-- C2 amended: for every running run whose workflow id resolves in the
store, advance succeeds; it records the output against the current step and
appends the current step to completed_steps whenever the current step is set
and non-empty, and records nothing when the current step is falsy; a
supplied non-empty next_step becomes the new current step unconditionally;
otherwise the first outgoing edge of the current step in the visual edge
list is followed, and with no such edge the run becomes completed with a
finish timestamp and no current step.  A run that is not running is left
unchanged with a failure result; a running run whose workflow id does not
resolve is marked error with a failure result. -/
theorem wf_C2_amended (lookup : String → Option Workflow) (run : WorkflowRun)
    (output : String) (next_step : Option String) (now : String) :
    (run.status ≠ "running" →
      advance_workflow_step lookup run output next_step now = (false, run)) ∧
    (run.status = "running" → lookup run.workflow_id = none →
      advance_workflow_step lookup run output next_step now =
        (false, { run with status := "error", error := some ("Workflow not found") })) ∧
    (∀ w : Workflow, run.status = "running" → lookup run.workflow_id = some w →
      (advance_workflow_step lookup run output next_step now).1 = true ∧
      (∀ cs, run.current_step = some cs → cs ≠ "" →
        (advance_workflow_step lookup run output next_step now).2.completed_steps =
            run.completed_steps ++ [cs] ∧
          (advance_workflow_step lookup run output next_step now).2.step_outputs =
            dictInsert run.step_outputs cs output) ∧
      (truthyOptStr run.current_step = false →
        (advance_workflow_step lookup run output next_step now).2.completed_steps =
            run.completed_steps ∧
          (advance_workflow_step lookup run output next_step now).2.step_outputs =
            run.step_outputs) ∧
      (∀ n, next_step = some n → n ≠ "" →
        (advance_workflow_step lookup run output next_step now).2.current_step = some n ∧
          (advance_workflow_step lookup run output next_step now).2.status = "running") ∧
      (truthyOptStr next_step = false →
        ∀ hd, (((visualEdges w).filter
              (fun e2 => optEqStr run.current_step e2.efrom)).map (fun e2 => e2.eto)).head? =
                some hd →
          (advance_workflow_step lookup run output next_step now).2.current_step = some hd ∧
            (advance_workflow_step lookup run output next_step now).2.status = "running") ∧
      (truthyOptStr next_step = false →
        (((visualEdges w).filter
              (fun e2 => optEqStr run.current_step e2.efrom)).map (fun e2 => e2.eto)).head? =
                none →
          (advance_workflow_step lookup run output next_step now).2.current_step = none ∧
            (advance_workflow_step lookup run output next_step now).2.status = "completed" ∧
            (advance_workflow_step lookup run output next_step now).2.finished_at =
              some now)) := by
  refine ⟨?_, ?_, ?_⟩
  · intro hne
    have h : (run.status != "running") = true := bne_iff_ne.mpr hne
    unfold advance_workflow_step
    rw [if_pos h]
  · intro hrun hlook
    have h : (run.status != "running") = false := by simp [hrun]
    unfold advance_workflow_step
    simp only [h, Bool.false_eq_true, if_false, hlook]
  · intro w hrun hlook
    have h : (run.status != "running") = false := by simp [hrun]
    have hred : advance_workflow_step lookup run output next_step now =
        (let run1 :=
          if truthyOptStr run.current_step then
            { run with
                completed_steps := run.completed_steps ++ [run.current_step.getD ("")],
                step_outputs :=
                  dictInsert run.step_outputs (run.current_step.getD ("")) output }
          else run
        if truthyOptStr next_step then (true, { run1 with current_step := next_step })
        else
          match (((visualEdges w).filter (fun e2 => optEqStr run.current_step e2.efrom)).map
              (fun e2 => e2.eto)).head? with
          | some t => (true, { run1 with current_step := some t })
          | none =>
            (true,
              { run1 with
                  current_step := none
                  status := "completed"
                  finished_at := some now })) := by
      unfold advance_workflow_step
      simp only [h, Bool.false_eq_true, if_false, hlook]
    rw [hred]
    by_cases hcur : truthyOptStr run.current_step = true
    · rw [if_pos hcur]
      refine ⟨?_, ?_, ?_, ?_, ?_, ?_⟩
      · by_cases hns : truthyOptStr next_step = true
        · rw [if_pos hns]
        · rw [if_neg hns]
          cases hh : (((visualEdges w).filter
              (fun e2 => optEqStr run.current_step e2.efrom)).map (fun e2 => e2.eto)).head? with
          | some t => rfl
          | none => rfl
      · intro cs hcs hcse
        rw [hcs]
        by_cases hns : truthyOptStr next_step = true
        · rw [if_pos hns]
          exact ⟨rfl, rfl⟩
        · rw [if_neg hns]
          cases hh : (((visualEdges w).filter
              (fun e2 => optEqStr (some cs) e2.efrom)).map (fun e2 => e2.eto)).head? with
          | some t => exact ⟨rfl, rfl⟩
          | none => exact ⟨rfl, rfl⟩
      · intro hcf
        rw [hcur] at hcf
        cases hcf
      · intro n hn hne2
        rw [hn]
        rw [if_pos (show truthyOptStr (some n) = true by simp [truthyOptStr, hne2])]
        exact ⟨rfl, hrun⟩
      · intro hns hd hh
        rw [if_neg (show ¬truthyOptStr next_step = true by simp [hns])]
        rw [hh]
        exact ⟨rfl, hrun⟩
      · intro hns hh
        rw [if_neg (show ¬truthyOptStr next_step = true by simp [hns])]
        rw [hh]
        exact ⟨rfl, rfl, rfl⟩
    · rw [if_neg hcur]
      refine ⟨?_, ?_, ?_, ?_, ?_, ?_⟩
      · by_cases hns : truthyOptStr next_step = true
        · rw [if_pos hns]
        · rw [if_neg hns]
          cases hh : (((visualEdges w).filter
              (fun e2 => optEqStr run.current_step e2.efrom)).map (fun e2 => e2.eto)).head? with
          | some t => rfl
          | none => rfl
      · intro cs hcs hcse
        exfalso
        apply hcur
        simp [hcs, truthyOptStr, hcse]
      · intro _
        by_cases hns : truthyOptStr next_step = true
        · rw [if_pos hns]
          exact ⟨rfl, rfl⟩
        · rw [if_neg hns]
          cases hh : (((visualEdges w).filter
              (fun e2 => optEqStr run.current_step e2.efrom)).map (fun e2 => e2.eto)).head? with
          | some t => exact ⟨rfl, rfl⟩
          | none => exact ⟨rfl, rfl⟩
      · intro n hn hne2
        rw [hn]
        rw [if_pos (show truthyOptStr (some n) = true by simp [truthyOptStr, hne2])]
        exact ⟨rfl, hrun⟩
      · intro hns hd hh
        rw [if_neg (show ¬truthyOptStr next_step = true by simp [hns])]
        rw [hh]
        exact ⟨rfl, hrun⟩
      · intro hns hh
        rw [if_neg (show ¬truthyOptStr next_step = true by simp [hns])]
        rw [hh]
        exact ⟨rfl, rfl, rfl⟩

/-- A running run whose workflow id resolves to nothing (workflow deleted
after the run started). -/
def runOrphan : WorkflowRun :=
  { id := "r2", workflow_id := "ghost", workflow_name := "Ghost", status := "running",
    prompt := "", current_step := some ("a"), completed_steps := [], step_outputs := [],
    started_at := "t0", finished_at := none, error := none }

/-- Counterexample for C2 as stated: on a running run whose workflow id does
not resolve, advance neither records the output nor appends the current step
to completed_steps; it returns failure and sets the status to error. -/
theorem wf_C2_counterexample :
    runOrphan.status = "running" ∧
      (advance_workflow_step (fun _ => none) runOrphan ("out") none ("t1")).1 = false ∧
      (advance_workflow_step (fun _ => none) runOrphan ("out") none ("t1")).2.completed_steps
          = [] ∧
      (advance_workflow_step (fun _ => none) runOrphan ("out") none ("t1")).2.step_outputs
          = [] ∧
      (advance_workflow_step (fun _ => none) runOrphan ("out") none ("t1")).2.status =
        "error" :=
  ⟨rfl, rfl, rfl, rfl, rfl⟩

/-- A store lookup resolving only the chain workflow. -/
def lookupChain : String → Option Workflow :=
  fun wid => if wid == "chain" then some exChain else none

/-- A running run of the chain workflow positioned at its first step. -/
def runChain : WorkflowRun :=
  { id := "r3", workflow_id := "chain", workflow_name := "Chain", status := "running",
    prompt := "", current_step := some ("a"), completed_steps := [], step_outputs := [],
    started_at := "t0", finished_at := none, error := none }

/-- Witness for C2 at a concrete running run of an existing workflow:
advance succeeds, records the output, and follows the first edge a → b. -/
theorem wf_C2_witness :
    (advance_workflow_step lookupChain runChain ("out") none ("t1")).1 = true ∧
      (advance_workflow_step lookupChain runChain ("out") none ("t1")).2.completed_steps =
        ["a"] ∧
      (advance_workflow_step lookupChain runChain ("out") none ("t1")).2.step_outputs =
        [("a", "out")] ∧
      (advance_workflow_step lookupChain runChain ("out") none ("t1")).2.current_step =
        some ("b") := by
  have h := (wf_C2_amended lookupChain runChain ("out") none ("t1")).2.2 exChain rfl rfl
  refine ⟨h.1, ?_, ?_, ?_⟩
  · exact (h.2.1 ("a") rfl (by decide)).1
  · exact (h.2.1 ("a") rfl (by decide)).2
  · exact (h.2.2.2.2.1 rfl ("b") rfl).1

/-- A concrete workflow with steps but no entry point. -/
def exNoEntry : Workflow :=
  { id := "noentry", name := "NoEntry", description := "no entry point",
    trigger := "manual",
    steps :=
      [{ id := "x", agent_name := "ax", action := "execute", description := "lone" }],
    entry_point := none }

/-- C10: for every existing workflow with no entry point, execute creates a
running run with no current step, and one advance with no explicit next step
completes it with a finish timestamp while completed_steps and step_outputs
stay empty (the supplied output is discarded). -/
theorem wf_C10 (w : Workflow) (run_id user_prompt now out now2 : String)
    (hentry : w.entry_point = none) :
    (execute_workflow w run_id user_prompt now).status = "running" ∧
    (execute_workflow w run_id user_prompt now).current_step = none ∧
    advance_workflow_step (fun wid => if wid == w.id then some w else none)
        (execute_workflow w run_id user_prompt now) out none now2 =
      (true,
        { execute_workflow w run_id user_prompt now with
            status := "completed"
            current_step := none
            finished_at := some now2 }) := by
  refine ⟨rfl, by simp [execute_workflow, hentry], ?_⟩
  have hfilter : ∀ l : List VisualEdge,
      l.filter (fun e2 => optEqStr (execute_workflow w run_id user_prompt now).current_step
        e2.efrom) = [] := by
    intro l
    apply List.filter_eq_nil.mpr
    intro a _
    simp [execute_workflow, hentry, optEqStr]
  unfold advance_workflow_step
  have h0 : ((execute_workflow w run_id user_prompt now).status != "running") = false := by
    simp [execute_workflow]
  have hlook : (fun wid => if wid == w.id then some w else none)
      (execute_workflow w run_id user_prompt now).workflow_id = some w := by
    simp [execute_workflow]
  simp only [h0, Bool.false_eq_true, if_false, hlook]
  have hcur : truthyOptStr (execute_workflow w run_id user_prompt now).current_step = false := by
    simp [execute_workflow, hentry, truthyOptStr]
  rw [if_neg (show ¬truthyOptStr (execute_workflow w run_id user_prompt now).current_step =
    true by simp [hcur])]
  rw [if_neg (show ¬truthyOptStr none = true by simp [truthyOptStr])]
  rw [hfilter]
  rfl

/-- Witness for C10 at a concrete workflow without an entry point. -/
theorem wf_C10_witness :
    advance_workflow_step (fun wid => if wid == exNoEntry.id then some exNoEntry else none)
        (execute_workflow exNoEntry ("r4") ("p") ("t0")) ("out") none ("t1") =
      (true,
        { execute_workflow exNoEntry ("r4") ("p") ("t0") with
            status := "completed"
            current_step := none
            finished_at := some ("t1") }) :=
  (wf_C10 exNoEntry ("r4") ("p") ("t0") ("out") ("t1") rfl).2.2

/-- dict assignment for the conditions association list, as dictInsert. -/
def condInsert (m : List (String × Condition)) (k : String) (v : Condition) :
    List (String × Condition) :=
  if m.any (fun p => p.1 == k) then m.map (fun p => if p.1 == k then (k, v) else p)
  else m ++ [(k, v)]

/-- The workflow id slug of create_workflow: lowercase, spaces and
underscores to dashes, all other characters outside [a-z0-9-] removed. -/
def slugify (name : String) : String :=
  let lowered := name.toList.map Char.toLower
  let dashed := lowered.map (fun c => if c == ' ' || c == '_' then '-' else c)
  String.mk (dashed.filter
    (fun c => (decide ('a' ≤ c) && decide (c ≤ 'z'))
      || (decide ('0' ≤ c) && decide (c ≤ '9')) || c == '-'))

/-- WorkflowManager.create_workflow. -/
def create_workflow (name description trigger now : String) : Workflow :=
  { id := slugify name, name := name, description := description, trigger := trigger,
    trigger_pattern := none, steps := [], entry_point := none, metadata := [],
    created_at := now, updated_at := now }

/-- WorkflowManager.add_step on a resolved workflow (a missing workflow id
makes the manager return None and leave the store untouched).  kwargs become
explicit parameters; kwargs.get("id") or f"step-..." treats an empty id as
falsy. -/
def add_step (w : Workflow) (agent_name action description : String)
    (idOpt : Option String) (inputs : List (String × String)) (outputs : List String)
    (next_steps : List String) (conditions : List (String × Condition))
    (on_error : Option String) (position_x position_y : Int) (node_type : String)
    (parameters : List (String × String)) : Workflow × WorkflowStep :=
  let auto := "step-" ++ toString (w.steps.length + 1)
  let step_id :=
    match idOpt with
    | some i => if i == "" then auto else i
    | none => auto
  let step : WorkflowStep :=
    { id := step_id, agent_name := agent_name, action := action,
      description := description, inputs := inputs, outputs := outputs,
      next_steps := next_steps, conditions := conditions, on_error := on_error,
      position_x := position_x, position_y := position_y, node_type := node_type,
      parameters := parameters }
  let steps2 := w.steps ++ [step]
  ({ w with
      steps := steps2
      entry_point := if steps2.length = 1 then some step_id else w.entry_point },
    step)

/-- The loop body of connect_steps: update the first step whose id matches,
none when no step matches.  A supplied empty condition dict is falsy in the
source and is modeled here as none. -/
def connectInSteps (from_step to_step : String) (condition : Option Condition) :
    List WorkflowStep → Option (List WorkflowStep)
  | [] => none
  | s :: rest =>
    if s.id == from_step then
      some
        ({ s with
            next_steps :=
              if to_step ∈ s.next_steps then s.next_steps else s.next_steps ++ [to_step]
            conditions :=
              match condition with
              | some c => condInsert s.conditions to_step c
              | none => s.conditions } :: rest)
    else (connectInSteps from_step to_step condition rest).map (fun l => s :: l)

/-- WorkflowManager.connect_steps on a resolved workflow. -/
def connect_steps (w : Workflow) (from_step to_step : String)
    (condition : Option Condition) : Bool × Workflow :=
  match connectInSteps from_step to_step condition w.steps with
  | some steps2 => (true, { w with steps := steps2 })
  | none => (false, w)

/-- WorkflowManager.remove_step on a resolved workflow (the manager returns
False and changes nothing when the workflow id is absent): drop the step,
remove the first occurrence of its id from every remaining next_steps list
(Python list.remove), drop its key from every conditions dict, and repair
the entry point. -/
def remove_step (w : Workflow) (step_id : String) : Workflow :=
  let steps1 := w.steps.filter (fun s => !(s.id == step_id))
  let steps2 := steps1.map (fun s =>
    { s with
        next_steps :=
          if step_id ∈ s.next_steps then s.next_steps.erase step_id else s.next_steps
        conditions :=
          if s.conditions.any (fun p => p.1 == step_id) then
            s.conditions.filter (fun p => !(p.1 == step_id))
          else s.conditions })
  { w with
      steps := steps2
      entry_point :=
        if w.entry_point == some step_id then (steps2.head?).map (fun s => s.id)
        else w.entry_point }

/-- One edge of the visual payload accepted by from_visual_format; absent
from/to keys default to the empty string, an absent or empty (falsy)
condition dict is modeled as none. -/
structure VisualEdgeIn where
  efrom : String := ""
  eto : String := ""
  condition : Option Condition := none
deriving DecidableEq

/-- One node of the visual payload accepted by from_visual_format. -/
structure VisualNode where
  id : String := ""
  ntype : String := "agent"
  x : Int := 0
  y : Int := 0
  agent : String := ""
  description : String := ""
  action : String := "execute"
  inputs : List (String × String) := []
  outputs : List String := []
  parameters : List (String × String) := []
  on_error : Option String := none
deriving DecidableEq

/-- The visual payload accepted by from_visual_format. -/
structure VisualFormat where
  id : String := ""
  name : String := ""
  description : String := ""
  trigger : String := "manual"
  trigger_pattern : Option String := none
  entry_point : Option String := none
  nodes : List VisualNode := []
  edges : List VisualEdgeIn := []
  metadata : List (String × String) := []
deriving DecidableEq

/-- WorkflowManager.from_visual_format: steps from nodes, next_steps and
conditions from the edges map (edges with a falsy from id are skipped; for
duplicate (from, to) pairs the last condition wins), entry_point copied from
the payload unvalidated. -/
def from_visual_format (data : VisualFormat) (now : String) : Workflow :=
  let nextsFor := fun nid =>
    (data.edges.filter (fun e2 => !(e2.efrom == "") && e2.efrom == nid)).map
      (fun e2 => e2.eto)
  let condsFor := fun nid =>
    data.edges.foldl
      (fun acc e2 =>
        if !(e2.efrom == "") && e2.efrom == nid && e2.condition.isSome then
          condInsert acc e2.eto (e2.condition.getD {})
        else acc)
      []
  let steps := data.nodes.map (fun n =>
    ({ id := n.id, agent_name := n.agent, action := n.action,
       description := n.description, inputs := n.inputs, outputs := n.outputs,
       next_steps := nextsFor n.id, conditions := condsFor n.id, on_error := n.on_error,
       position_x := n.x, position_y := n.y, node_type := n.ntype,
       parameters := n.parameters } : WorkflowStep))
  { id := data.id, name := data.name, description := data.description,
    trigger := data.trigger, trigger_pattern := data.trigger_pattern, steps := steps,
    entry_point := data.entry_point, metadata := data.metadata,
    created_at := now, updated_at := now }

/-- The construction-time invariant of claim C7: entry_point absent or equal
to the id of some step. -/
def entryPointValid (w : Workflow) : Bool :=
  match w.entry_point with
  | none => true
  | some e => w.steps.any (fun s => s.id == e)

theorem any_id_eq_map {l : List WorkflowStep} {e : String} :
    (l.any (fun s => s.id == e)) = ((l.map (fun s => s.id)).any (fun x => x == e)) := by
  induction l with
  | nil => rfl
  | cons s t ih => simp [List.any_cons, ih]

theorem entryPointValid_of_ids {w : Workflow} {steps2 : List WorkflowStep}
    (hid : steps2.map (fun s => s.id) = w.steps.map (fun s => s.id))
    (hw : entryPointValid w = true) :
    entryPointValid { w with steps := steps2 } = true := by
  unfold entryPointValid at hw ⊢
  cases he : w.entry_point with
  | none => simp [he]
  | some e =>
    rw [he] at hw
    simp only [he]
    rw [any_id_eq_map, hid, ← any_id_eq_map]
    exact hw

theorem connectInSteps_ids (from_step to_step : String) (condition : Option Condition) :
    ∀ l l2, connectInSteps from_step to_step condition l = some l2 →
      l2.map (fun s => s.id) = l.map (fun s => s.id) := by
  intro l
  induction l with
  | nil =>
    intro l2 h
    simp [connectInSteps] at h
  | cons s rest ih =>
    intro l2 h
    unfold connectInSteps at h
    by_cases hs : (s.id == from_step) = true
    · rw [if_pos hs] at h
      cases h
      rfl
    · rw [if_neg hs] at h
      rcases Option.map_eq_some'.mp h with ⟨l3, hl3, rfl⟩
      simp only [List.map_cons, ih l3 hl3]

theorem entryPointValid_add {w : Workflow} {st : WorkflowStep} {c : Prop} [Decidable c]
    (hw : entryPointValid w = true) :
    entryPointValid
      { w with
          steps := w.steps ++ [st]
          entry_point := if c then some st.id else w.entry_point } = true := by
  unfold entryPointValid at hw ⊢
  by_cases hc : c
  · rw [if_pos hc]
    exact List.any_eq_true.mpr
      ⟨st, List.mem_append_right _ (List.mem_singleton.mpr rfl), by simp⟩
  · rw [if_neg hc]
    cases he : w.entry_point with
    | none => rfl
    | some e =>
      rw [he] at hw
      rcases List.any_eq_true.mp hw with ⟨s, hs, hse⟩
      exact List.any_eq_true.mpr ⟨s, List.mem_append_left _ hs, hse⟩

theorem entryPointValid_remove {w : Workflow} {steps2 : List WorkflowStep} {step_id : String}
    (hkeep : ∀ e, w.entry_point = some e → e ≠ step_id → ∃ s2 ∈ steps2, s2.id = e) :
    entryPointValid
      { w with
          steps := steps2
          entry_point :=
            if w.entry_point == some step_id then (steps2.head?).map (fun s => s.id)
            else w.entry_point } = true := by
  unfold entryPointValid
  by_cases heq : (w.entry_point == some step_id) = true
  · rw [if_pos heq]
    cases hh : steps2.head? with
    | none => rfl
    | some s0 =>
      simp only [Option.map_some']
      exact List.any_eq_true.mpr ⟨s0, List.mem_of_mem_head? hh, by simp⟩
  · rw [if_neg heq]
    cases he : w.entry_point with
    | none => rfl
    | some e =>
      have hne : e ≠ step_id := by
        intro hcontra
        apply heq
        rw [he, hcontra]
        simp
      rcases hkeep e he hne with ⟨s2, hs2, hid⟩
      exact List.any_eq_true.mpr ⟨s2, hs2, by simp [hid]⟩

/-- C7 amended: the entry-point invariant (absent or the id of some step)
is established by create_workflow and preserved by add_step, connect_steps
and remove_step; from_visual_format preserves it only when the payload
entry_point is itself the id of one of the payload nodes — it copies the
field unvalidated (see the counterexample). -/
theorem wf_C7_amended :
    (∀ name description trigger now,
      entryPointValid (create_workflow name description trigger now) = true) ∧
    (∀ (w : Workflow) (an ac de : String) (idOpt : Option String)
        (ins : List (String × String)) (outs : List String) (ns : List String)
        (cs : List (String × Condition)) (oe : Option String) (px py : Int)
        (nt : String) (ps : List (String × String)),
      entryPointValid w = true →
      entryPointValid (add_step w an ac de idOpt ins outs ns cs oe px py nt ps).1 = true) ∧
    (∀ (w : Workflow) (from_step to_step : String) (condition : Option Condition),
      entryPointValid w = true →
      entryPointValid (connect_steps w from_step to_step condition).2 = true) ∧
    (∀ (w : Workflow) (step_id : String),
      entryPointValid w = true →
      entryPointValid (remove_step w step_id) = true) ∧
    (∀ (data : VisualFormat) (now : String),
      (match data.entry_point with
        | none => True
        | some e => e ∈ data.nodes.map (fun n => n.id)) →
      entryPointValid (from_visual_format data now) = true) := by
  refine ⟨?_, ?_, ?_, ?_, ?_⟩
  · intro name description trigger now
    rfl
  · intro w an ac de idOpt ins outs ns cs oe px py nt ps hw
    exact entryPointValid_add hw
  · intro w from_step to_step condition hw
    unfold connect_steps
    cases hc : connectInSteps from_step to_step condition w.steps with
    | none => exact hw
    | some steps2 =>
      exact entryPointValid_of_ids (connectInSteps_ids _ _ _ _ _ hc) hw
  · intro w step_id hw
    unfold remove_step
    apply entryPointValid_remove
    intro e he hne
    unfold entryPointValid at hw
    rw [he] at hw
    rcases List.any_eq_true.mp hw with ⟨s, hs, hse⟩
    have hsid : s.id = e := by simpa using hse
    refine ⟨_, List.mem_map_of_mem _ (List.mem_filter.mpr ⟨hs, ?_⟩), hsid⟩
    simp [hsid, hne]
  · intro data now hvalid
    unfold from_visual_format entryPointValid
    cases he : data.entry_point with
    | none => simp only [he]
    | some e =>
      rw [he] at hvalid
      simp only [he]
      rcases List.mem_map.mp hvalid with ⟨n, hn, hne⟩
      exact List.any_eq_true.mpr ⟨_, List.mem_map_of_mem _ hn, by simp [hne]⟩

/-- A visual payload whose entry_point names no node. -/
def badVisual : VisualFormat :=
  { id := "bad", name := "Bad", description := "entry points nowhere",
    trigger := "manual", entry_point := some ("ghost"), nodes := [], edges := [] }

/-- Counterexample for C7 as stated: from_visual_format copies the payload
entry_point without validation, producing a workflow whose entry_point names
no step. -/
theorem wf_C7_counterexample :
    (from_visual_format badVisual ("t0")).entry_point = some ("ghost") ∧
      entryPointValid (from_visual_format badVisual ("t0")) = false :=
  ⟨rfl, rfl⟩

/-- Witness for C7: adding a step to the concrete chain keeps the invariant. -/
theorem wf_C7_witness :
    entryPointValid
      (add_step exChain ("c1") ("execute") ("third") none [] [] [] [] none 0 0
        ("agent") []).1 = true :=
  wf_C7_amended.2.1 exChain ("c1") ("execute") ("third") none [] [] [] [] none 0 0
    ("agent") [] (by decide)

/-- C9 amended: after remove_step, no remaining step has the removed id; each
surviving step keeps every field unchanged except that the FIRST occurrence
of the removed id is deleted from next_steps (Python list.remove — so the id
can remain when it was listed more than once, see the counterexample) and
the removed id is deleted as a conditions key; entry_point becomes the id of
the first remaining step (or none) when it pointed at the removed step, and
is unchanged otherwise. -/
theorem wf_C9_amended (w : Workflow) (step_id : String) :
    (∀ s2 ∈ (remove_step w step_id).steps, s2.id ≠ step_id) ∧
    (∀ s ∈ w.steps, s.id ≠ step_id →
      ∃ s2 ∈ (remove_step w step_id).steps,
        s2.id = s.id ∧ s2.agent_name = s.agent_name ∧ s2.action = s.action ∧
        s2.description = s.description ∧ s2.inputs = s.inputs ∧
        s2.outputs = s.outputs ∧ s2.on_error = s.on_error ∧
        s2.position_x = s.position_x ∧ s2.position_y = s.position_y ∧
        s2.node_type = s.node_type ∧ s2.parameters = s.parameters ∧
        s2.next_steps = s.next_steps.erase step_id ∧
        s2.conditions = s.conditions.filter (fun p => !(p.1 == step_id))) ∧
    (∀ s2 ∈ (remove_step w step_id).steps, ∀ c, (step_id, c) ∉ s2.conditions) ∧
    (w.entry_point = some step_id →
      (remove_step w step_id).entry_point =
        ((remove_step w step_id).steps.head?).map (fun s => s.id)) ∧
    (w.entry_point ≠ some step_id →
      (remove_step w step_id).entry_point = w.entry_point) := by
  refine ⟨?_, ?_, ?_, ?_, ?_⟩
  · intro s2 hs2
    unfold remove_step at hs2
    simp only [List.mem_map] at hs2
    rcases hs2 with ⟨s, hs, rfl⟩
    have hpred := List.of_mem_filter hs
    simpa using hpred
  · intro s hs hne
    refine ⟨{ s with
        next_steps :=
          if step_id ∈ s.next_steps then s.next_steps.erase step_id else s.next_steps
        conditions :=
          if s.conditions.any (fun p => p.1 == step_id) then
            s.conditions.filter (fun p => !(p.1 == step_id))
          else s.conditions },
      ?_, rfl, rfl, rfl, rfl, rfl, rfl, rfl, rfl, rfl, rfl, rfl, ?_, ?_⟩
    · unfold remove_step
      exact List.mem_map_of_mem _ (List.mem_filter.mpr ⟨hs, by simp [hne]⟩)
    · by_cases hmem : step_id ∈ s.next_steps
      · simp only [if_pos hmem]
      · rw [if_neg hmem, List.erase_of_not_mem hmem]
    · by_cases hany : (s.conditions.any (fun p => p.1 == step_id)) = true
      · simp only [if_pos hany]
      · rw [if_neg hany]
        have hall : ∀ p ∈ s.conditions, (!(p.1 == step_id)) = true := by
          intro p hp
          by_cases hpk : (p.1 == step_id) = true
          · exact absurd (List.any_eq_true.mpr ⟨p, hp, hpk⟩) hany
          · simp [hpk]
        exact (List.filter_eq_self.mpr hall).symm
  · intro s2 hs2 c hc
    unfold remove_step at hs2
    simp only [List.mem_map] at hs2
    rcases hs2 with ⟨s, hs, rfl⟩
    have hc2 : (step_id, c) ∈
        (if (s.conditions.any (fun p => p.1 == step_id)) = true then
          s.conditions.filter (fun p => !(p.1 == step_id))
        else s.conditions) := hc
    by_cases hany : (s.conditions.any (fun p => p.1 == step_id)) = true
    · rw [if_pos hany] at hc2
      have hpred := List.of_mem_filter hc2
      simp at hpred
    · rw [if_neg hany] at hc2
      exact hany (List.any_eq_true.mpr ⟨(step_id, c), hc2, by simp⟩)
  · intro he
    show (if (w.entry_point == some step_id) = true
        then ((remove_step w step_id).steps.head?).map (fun s => s.id)
        else w.entry_point) =
      ((remove_step w step_id).steps.head?).map (fun s => s.id)
    rw [if_pos (by simp [he])]
  · intro he
    show (if (w.entry_point == some step_id) = true
        then ((remove_step w step_id).steps.head?).map (fun s => s.id)
        else w.entry_point) = w.entry_point
    rw [if_neg (by simpa using he)]

/-- A workflow in which one step lists the same successor twice, as
from_visual_format produces for duplicated edges. -/
def wDupEdges : Workflow :=
  { id := "dup", name := "Dup", description := "duplicated edge",
    trigger := "manual",
    steps :=
      [{ id := "a", agent_name := "a1", action := "execute", description := "first",
         next_steps := ["x", "x"] },
       { id := "x", agent_name := "x1", action := "execute", description := "target" }],
    entry_point := some ("a") }

/-- Counterexample for C9 as stated: remove_step deletes only the first
occurrence of the removed id from next_steps, so after removing x the
remaining step still lists x. -/
theorem wf_C9_counterexample :
    ((remove_step wDupEdges ("x")).steps.any
      (fun s => s.next_steps.contains ("x"))) = true :=
  rfl

/-- Witness for C9: entry_point is untouched when it does not name the
removed step. -/
theorem wf_C9_witness :
    (remove_step exLoop ("body")).entry_point = exLoop.entry_point :=
  (wf_C9_amended exLoop ("body")).2.2.2.2 (by decide)
